import Mathlib

/-!
Shallow embedding of the echovault memory engine — the database layer
(src/memory/db.py), the hybrid search module (src/memory/search.py) and
the save/dedup orchestration (src/memory/core.py) — together with proofs
about its behaviour.

Modelling conventions:
* Python floats are modelled as rationals (`ℚ`).
* The SQLite FTS5 BM25 ranking is abstracted as an oracle
  `rank : String → Row → Option ℚ` giving, for a fixed query string, the
  score of every matching row (`none` means the row does not match).
  `fts_search` applies the project/source filters, orders by descending
  score (the SQL orders by ascending rank, and `score = -rank`), and
  truncates, exactly as the SQL statement in `MemoryDB.fts_search` does.
* SQL result order for equal keys is the order of the `rows` list
  (insertion order), matching SQLite's behaviour for these queries.
* `LIKE 'p%'` is ASCII-case-insensitive in SQLite; `likeP` lowers both
  sides before the prefix test.
* Exceptions are modelled with `Except`; operations whose failures the
  caller swallows take the failure outcome as an explicit input.
-/

namespace EchoVault

/-- One row of the `memories` table (columns of `MemoryDB._create_schema`;
`tags` is stored as JSON in SQLite, modelled directly as the list it
serialises; `related_files` and `section_anchor` play no role in any
operation modelled here and are omitted). -/
structure Row where
  rowid : Nat
  id : String
  title : String
  what : String
  why : Option String
  impact : Option String
  tags : List String
  category : Option String
  project : String
  source : Option String
  file_path : String
  created_at : String
  updated_at : String
  updated_count : Nat
deriving DecidableEq, Repr

/-- Database state: the `memories` table, the `memory_details` table
(memory_id ↦ body), the `embedding_dim` entry of the `meta` table, the
existence of the `memories_vec` virtual table, its contents
(rowid ↦ embedding), and the AUTOINCREMENT counter for `rowid`. -/
structure DB where
  rows : List Row
  details : List (String × String)
  embedding_dim : Option Nat
  vec_table : Bool
  vectors : List (Nat × List ℚ)
  next_rowid : Nat
deriving DecidableEq, Repr

/-- A search-result row: a memory row together with its score
(the Python code carries these as dicts with a `score` key). -/
structure Cand where
  row : Row
  score : ℚ
deriving DecidableEq, Repr

/-- Python `max` on two rationals. -/
def qmax (a b : ℚ) : ℚ := if a ≤ b then b else a

/-- Python `max(r["score"] for r in l)` over a non-empty list
(`0` for the empty list, which the callers never pass). -/
def scoresMax : List Cand → ℚ
  | [] => 0
  | c :: cs => cs.foldl (fun a x => qmax a x.score) c.score

/-- Descending-score order used for `sorted(..., key=..., reverse=True)`
and for `ORDER BY` on scores. -/
def candGE (a b : Cand) : Prop := b.score ≤ a.score

instance : DecidableRel candGE := fun a b => inferInstanceAs (Decidable (b.score ≤ a.score))

instance : IsTotal Cand candGE := ⟨fun a b => le_total b.score a.score⟩

instance : IsTrans Cand candGE := ⟨fun _ _ _ h1 h2 => le_trans h2 h1⟩

/-- Score normalization as written in `merge_results` (search.py lines
29-38) and `tiered_search` (lines 87-90): skip an empty list; otherwise
`m = max(scores) or 1.0` and each score becomes `s / m` if `m > 0`,
else `0.0`. -/
def normalizeScores (l : List Cand) : List Cand :=
  if l.isEmpty then l
  else
    let m := if scoresMax l = 0 then 1 else scoresMax l
    l.map (fun c => { c with score := if 0 < m then c.score / m else 0 })

/-- `scores[rid] = dict(r); scores[rid]["score"] = fts_weight * r["score"]`
on the insertion-ordered dict, modelled as a list of entries: overwrite in
place if the key exists, else append. -/
def dictSetF (fw : ℚ) (m : List Cand) (c : Cand) : List Cand :=
  if m.any (fun x => x.row.id == c.row.id) then
    m.map (fun x => if x.row.id == c.row.id then { c with score := fw * c.score } else x)
  else m ++ [{ c with score := fw * c.score }]

/-- The vector loop of `merge_results`: add `vec_weight * score` to an
existing entry, else insert the record with score `vec_weight * score`. -/
def dictAddV (vw : ℚ) (m : List Cand) (c : Cand) : List Cand :=
  if m.any (fun x => x.row.id == c.row.id) then
    m.map (fun x => if x.row.id == c.row.id then { x with score := x.score + vw * c.score } else x)
  else m ++ [{ c with score := vw * c.score }]

/-- `merge_results` (search.py lines 9-55): normalize both lists, combine
by id with weighted scores, sort by combined score descending, truncate.
Python defaults: `fts_weight = 0.3`, `vec_weight = 0.7`, `limit = 5`. -/
def merge_results (fts_results vec_results : List Cand) (fts_weight vec_weight : ℚ)
    (limit : Nat) : List Cand :=
  let ftsN := normalizeScores fts_results
  let vecN := normalizeScores vec_results
  let scores := vecN.foldl (dictAddV vec_weight) (ftsN.foldl (dictSetF fts_weight) [])
  (scores.insertionSort candGE).take limit

/-- ASCII lowercasing, modelling Python `str.lower()` and SQLite's
ASCII-only `LIKE` case folding on the ASCII ids and titles involved
(structurally recursive so that concrete instances evaluate). -/
def lowerChar (c : Char) : Char :=
  if 65 ≤ c.toNat ∧ c.toNat ≤ 90 then Char.ofNat (c.toNat + 32) else c

def strLower (s : String) : String := ⟨s.data.map lowerChar⟩

/-- Python `str.strip()`: drop leading and trailing whitespace. -/
def strStrip (s : String) : String :=
  ⟨((s.data.dropWhile Char.isWhitespace).reverse.dropWhile Char.isWhitespace).reverse⟩

/-- SQLite `id LIKE ? || '%'`: ASCII-case-insensitive prefix match. -/
def likeP (p s : String) : Bool := (strLower p).data.isPrefixOf (strLower s).data

/-- The optional `WHERE` clauses of `MemoryDB.fts_search`: exact equality
on `project` and `source` when the filters are present. -/
def filterOk (project source : Option String) (c : Cand) : Bool :=
  (match project with
   | none => true
   | some p => c.row.project == p) &&
  (match source with
   | none => true
   | some s => c.row.source == some s)

/-- `MemoryDB.fts_search` (db.py lines 380-432): rows matching the query
(per the BM25 oracle), filtered by exact project/source equality, ordered
by descending score, truncated to `limit`. -/
def fts_search (rank : String → Row → Option ℚ) (db : DB) (query : String)
    (lim : Nat) (project : Option String) (source : Option String) : List Cand :=
  let matched := db.rows.filterMap (fun r => (rank query r).map (fun s => Cand.mk r s))
  ((matched.filter (filterOk project source)).insertionSort candGE).take lim

/-- Outcome of the embedding gateway and the vector-search step used by
`tiered_search`: `search` models `embedding_provider.search(query)` and
`vecSearch` models `db.vector_search(query_vec, limit*2, project, source)`;
either may raise. -/
structure Gateway where
  search : Except Unit (List ℚ)
  vecSearch : List ℚ → Except Unit (List Cand)

/-- Result of `tiered_search` plus instrumentation recording whether the
embedding provider and the vector search were invoked. -/
structure TieredResult where
  results : List Cand
  embedInvoked : Bool
  vectorSearchInvoked : Bool
deriving Repr

/-- `tiered_search` (search.py lines 58-111): fetch FTS results with limit
`2*limit`, normalize, return the top `limit` if at least `min_fts_results`
were found or no provider is configured; otherwise embed the query and run
vector search, merging with the default weights; any failure in that step
degrades to the keyword-only results. -/
def tiered_search (rank : String → Row → Option ℚ) (db : DB) (gw : Option Gateway)
    (query : String) (lim min_fts_results : Nat)
    (project : Option String) (source : Option String) : TieredResult :=
  let fts := normalizeScores (fts_search rank db query (lim * 2) project source)
  if min_fts_results ≤ fts.length then ⟨fts.take lim, false, false⟩
  else
    match gw with
    | none => ⟨fts.take lim, false, false⟩
    | some g =>
      match g.search with
      | .error _ => ⟨fts.take lim, true, false⟩
      | .ok query_vec =>
        match g.vecSearch query_vec with
        | .error _ => ⟨fts.take lim, true, true⟩
        | .ok vec_results => ⟨merge_results fts vec_results (3/10) (7/10) lim, true, true⟩

/-- The distinguished error of `MemoryDB.ensure_vec_table`
(`DimensionMismatchError`, db.py lines 617-627): carries the stored and
the requested dimension. -/
structure DimensionMismatch where
  stored : Nat
  requested : Nat
deriving DecidableEq, Repr

/-- `MemoryDB.ensure_vec_table` (db.py lines 167-181): if no dimension is
recorded, record it and create the vec table; if the recorded dimension
differs from the requested one, raise `DimensionMismatch`; otherwise do
nothing. -/
def ensure_vec_table (db : DB) (dim : Nat) : Except DimensionMismatch DB :=
  match db.embedding_dim with
  | none => .ok { db with embedding_dim := some dim, vec_table := true }
  | some stored =>
    if stored = dim then .ok db else .error ⟨stored, dim⟩

/-- `MemoryDB.insert_vector` (db.py lines 224-242): no-op without a vec
table; otherwise an SQL INSERT keyed by rowid. A duplicate rowid makes the
underlying INSERT fail; both call sites in `MemoryService.save` wrap the
call in a catch-all, so the caller-visible effect of that failure is "no
change", which is how it is modelled here. -/
def insert_vector (db : DB) (rowid : Nat) (embedding : List ℚ) : DB :=
  if ¬ db.vec_table then db
  else if db.vectors.any (fun p => p.1 == rowid) then db
  else { db with vectors := db.vectors ++ [(rowid, embedding)] }

/-- Python truthiness of an optional string (`if x:` on `str | None`). -/
def pyTruthy : Option String → Bool
  | none => false
  | some s => !(s == "")

/-- `MemoryDB.insert_memory` (db.py lines 183-222): append the row with
the next AUTOINCREMENT rowid, insert the detail body when supplied
(`if details:` — Python truthiness), return the rowid. -/
def insert_memory (db : DB) (mem : Row) (details : Option String) : DB × Nat :=
  let rowid := db.next_rowid
  let row := { mem with rowid := rowid }
  let db1 := { db with rows := db.rows ++ [row], next_rowid := rowid + 1 }
  let db2 :=
    if pyTruthy details then
      { db1 with details := db1.details ++ [(mem.id, details.getD "")] }
    else db1
  (db2, rowid)

/-- `MemoryDB.get_memory` (db.py lines 244-264): exact-id point lookup
(`WHERE m.id = ?`), first row or absent. -/
def get_memory (db : DB) (memory_id : String) : Option Row :=
  db.rows.find? (fun r => r.id == memory_id)

/-- `MemoryDB.get_details` (db.py lines 266-285): first detail row whose
key matches `memory_id LIKE ? || '%'`, or absent. -/
def get_details (db : DB) (memory_id : String) : Option (String × String) :=
  db.details.find? (fun p => likeP memory_id p.1)

/-- `MemoryDB.update_memory` (db.py lines 287-351): resolve the id prefix
to the first matching row (no uniqueness check), bump `updated_count` and
`updated_at`, replace only the supplied fields, and append to (or create)
the detail body when `details_append` is truthy. -/
def update_memory (db : DB) (memory_id : String) (what why impact : Option String)
    (tags : Option (List String)) (details_append : Option String) (now : String) :
    DB × Bool :=
  match db.rows.find? (fun r => likeP memory_id r.id) with
  | none => (db, false)
  | some hit =>
    let full_id := hit.id
    let rows1 := db.rows.map (fun r =>
      if r.id == full_id then
        { r with
          updated_count := r.updated_count + 1
          updated_at := now
          what := what.getD r.what
          why := if why.isSome then why else r.why
          impact := if impact.isSome then impact else r.impact
          tags := tags.getD r.tags }
      else r)
    let details1 :=
      if pyTruthy details_append then
        let d := details_append.getD ""
        if db.details.any (fun p => p.1 == full_id) then
          db.details.map (fun p => if p.1 == full_id then (p.1, p.2 ++ "\n\n" ++ d) else p)
        else db.details ++ [(full_id, d)]
      else db.details
    ({ db with rows := rows1, details := details1 }, true)

/-- `MemoryDB.delete_memory` (db.py lines 353-378): resolve the id prefix
to the first matching row (no uniqueness check), then delete its detail
row and its memory row; both deletions and the resulting disappearance
from keyword search are effects of the one returned state. -/
def delete_memory (db : DB) (memory_id : String) : DB × Bool :=
  match db.rows.find? (fun r => likeP memory_id r.id) with
  | none => (db, false)
  | some hit =>
    ({ db with
       details := db.details.filter (fun p => !(p.1 == hit.id))
       rows := db.rows.filter (fun r => !(r.id == hit.id)) }, true)

/-- Raw input to `MemoryService.save` (`RawMemoryInput`, models.py lines
20-32; `related_files` is not consulted by anything modelled here). -/
structure RawMemoryInput where
  title : String
  what : String
  why : Option String
  impact : Option String
  tags : List String
  category : Option String
  details : Option String
  source : Option String
deriving DecidableEq, Repr

/-- `MemoryService._merge_tags` (core.py lines 118-126): keep the existing
tags in order, append each extra tag whose lowercase form was not seen. -/
def merge_tags (existing extra : List String) : List String :=
  extra.foldl (fun combined tag =>
    if combined.any (fun t => strLower t == strLower tag) then combined
    else combined ++ [tag]) existing

/-- Environment of one `MemoryService.save` call: the BM25 oracle, the
failure outcomes of the two dedup probes (each probe sits in a
`try/except`), the outcome of `embedding_provider.embed`, the redaction
collaborator, the generated uuid, and the clock values. -/
structure SaveEnv where
  rank : String → Row → Option ℚ
  probeFails : Bool
  broadProbeFails : Bool
  embed : Except Unit (List ℚ)
  redact : String → String
  newId : String
  today : String
  now : String

/-- Result dict of `MemoryService.save`. -/
structure SaveResult where
  id : String
  file_path : String
  action : String
deriving DecidableEq, Repr

/-- The redaction step of `save` (core.py lines 167-173): `what` is always
redacted; `why`, `impact` and `details` only when truthy. -/
def redactRaw (ρ : String → String) (raw : RawMemoryInput) : RawMemoryInput :=
  { raw with
    what := ρ raw.what
    why := if pyTruthy raw.why then raw.why.map ρ else raw.why
    impact := if pyTruthy raw.impact then raw.impact.map ρ else raw.impact
    details := if pyTruthy raw.details then raw.details.map ρ else raw.details }

/-- The dedup probe string `f"{raw.title} {raw.what}"` (core.py line 176),
built from the already-redacted input. -/
def dedupQuery (raw : RawMemoryInput) : String := raw.title ++ " " ++ raw.what

/-- The project-scoped dedup probe (core.py lines 177-180): top-5 keyword
search restricted to the project; a raised probe degrades to no
candidates. -/
def dedupProbe (env : SaveEnv) (db : DB) (raw : RawMemoryInput) (project : String) :
    List Cand :=
  if env.probeFails then [] else
    fts_search env.rank db (dedupQuery raw) 5 (some project) none

/-- The `broad` list of core.py lines 184-190: when exactly one
project-scoped candidate exists, replace it by the unfiltered top-5
re-probe; a raised or empty re-probe (`... or broad`) keeps the
candidates. -/
def dedupBroad (env : SaveEnv) (db : DB) (raw : RawMemoryInput)
    (candidates : List Cand) : List Cand :=
  if candidates.length = 1 then
    if env.broadProbeFails then candidates
    else
      let b := fts_search env.rank db (dedupQuery raw) 5 none none
      if b.isEmpty then candidates else b
  else candidates

/-- The dedup decision of `save` (core.py lines 182-196): with candidates
present, pick the normalization denominator (the unfiltered top-5 re-probe
when exactly one project-scoped candidate exists and the re-probe neither
raises nor comes back empty, else the candidates themselves), normalize
the top candidate's score, and require both `normalized >= 0.7` and the
case-insensitive whitespace-trimmed title match. Returns the matched top
candidate on the update path, `none` on the create path. -/
def dedupTop (env : SaveEnv) (db : DB) (raw : RawMemoryInput) (project : String) :
    Option Cand :=
  match dedupProbe env db raw project with
  | [] => none
  | top :: rest =>
    let broad := dedupBroad env db raw (top :: rest)
    let max_score := if broad.isEmpty then 0 else scoresMax broad
    let normalized := if 0 < max_score then top.score / max_score else 0
    let title_match := strLower (strStrip raw.title) == strLower (strStrip top.row.title)
    if 7/10 ≤ normalized ∧ title_match then some top else none

/-- The best-effort re-embed of the update path (core.py lines 219-231):
embed, ensure the vec table, look up the rowid, insert the vector; any
failure (including a dimension mismatch) leaves the state unchanged. -/
def reembedUpdate (env : SaveEnv) (db : DB) (existing_id : String) : DB :=
  match env.embed with
  | .error _ => db
  | .ok embedding =>
    match ensure_vec_table db embedding.length with
    | .error _ => db
    | .ok dbv =>
      match dbv.rows.find? (fun r => r.id == existing_id) with
      | none => dbv
      | some r => insert_vector dbv r.rowid embedding

/-- The `Memory.from_raw` object of the create path (models.py lines
54-74 together with core.py lines 237-238): new uuid, fresh timestamps,
zero update counter, markdown path `vault/<project>/<today>-session.md`
(the vault root prefix is constant and elided). -/
def newMemory (env : SaveEnv) (raw : RawMemoryInput) (project : String) : Row :=
  { rowid := 0, id := env.newId, title := raw.title, what := raw.what
    why := raw.why, impact := raw.impact, tags := raw.tags
    category := raw.category, project := project, source := raw.source
    file_path := project ++ "/" ++ env.today ++ "-session.md"
    created_at := env.now, updated_at := env.now
    updated_count := 0 }

/-- The dated separator block prepended to appended details
(core.py line 208). -/
def detailsAppendOf (env : SaveEnv) (raw : RawMemoryInput) : Option String :=
  if pyTruthy raw.details then
    some ("--- updated " ++ env.today ++ " ---\n" ++ raw.details.getD "")
  else none

/-- `MemoryService.save` (core.py lines 146-266): redact, run the dedup
probe, and either update the matched memory (merge tags, replace supplied
fields, append dated details, best-effort re-embed) or create a new one
(insert row and detail, then best-effort embed: a raised embed or a
dimension mismatch leaves the memory stored without a vector). -/
def save (env : SaveEnv) (db : DB) (raw0 : RawMemoryInput) (project : String) :
    DB × SaveResult :=
  let raw := redactRaw env.redact raw0
  match dedupTop env db raw project with
  | some top =>
    let existing_id := top.row.id
    let merged_tags := merge_tags top.row.tags raw.tags
    let db1 := (update_memory db existing_id (some raw.what) raw.why raw.impact
      (some merged_tags) (detailsAppendOf env raw) env.now).1
    let db2 := reembedUpdate env db1 existing_id
    (db2, ⟨existing_id, top.row.file_path, "updated"⟩)
  | none =>
    let mem := newMemory env raw project
    let ins := insert_memory db mem raw.details
    let db1 := ins.1
    let db2 :=
      match env.embed with
      | .error _ => db1
      | .ok embedding =>
        match ensure_vec_table db1 embedding.length with
        | .error _ => db1
        | .ok dbv => insert_vector dbv ins.2 embedding
    (db2, ⟨env.newId, mem.file_path, "created"⟩)

/-! ### Helper lemmas -/

theorem normalizeScores_length (l : List Cand) :
    (normalizeScores l).length = l.length := by
  unfold normalizeScores
  split
  · rfl
  · simp

theorem insert_vector_rows (db : DB) (rowid : Nat) (emb : List ℚ) :
    (insert_vector db rowid emb).rows = db.rows := by
  unfold insert_vector
  split
  · rfl
  · split <;> rfl

theorem insert_vector_details (db : DB) (rowid : Nat) (emb : List ℚ) :
    (insert_vector db rowid emb).details = db.details := by
  unfold insert_vector
  split
  · rfl
  · split <;> rfl

theorem ensure_vec_table_ok_state (db : DB) (dim : Nat) (db1 : DB)
    (h : ensure_vec_table db dim = .ok db1) :
    db1.rows = db.rows ∧ db1.details = db.details ∧ db1.vectors = db.vectors := by
  unfold ensure_vec_table at h
  rcases hd : db.embedding_dim with _ | s <;> simp only [hd] at h
  · cases h
    exact ⟨rfl, rfl, rfl⟩
  · by_cases hsd : s = dim
    · rw [if_pos hsd] at h
      cases h
      exact ⟨rfl, rfl, rfl⟩
    · rw [if_neg hsd] at h
      cases h

theorem reembedUpdate_rows (env : SaveEnv) (db : DB) (existing_id : String) :
    (reembedUpdate env db existing_id).rows = db.rows := by
  rcases he : env.embed with _ | emb
  · simp only [reembedUpdate, he]
  · rcases hv : ensure_vec_table db emb.length with e | dbv
    · simp only [reembedUpdate, he, hv]
    · obtain ⟨hr, _, _⟩ := ensure_vec_table_ok_state db emb.length dbv hv
      rcases hf : dbv.rows.find? (fun r => r.id == existing_id) with _ | r
      · simp only [reembedUpdate, he, hv, hf]
        exact hr
      · simp only [reembedUpdate, he, hv, hf, insert_vector_rows]
        exact hr

theorem reembedUpdate_details (env : SaveEnv) (db : DB) (existing_id : String) :
    (reembedUpdate env db existing_id).details = db.details := by
  rcases he : env.embed with _ | emb
  · simp only [reembedUpdate, he]
  · rcases hv : ensure_vec_table db emb.length with e | dbv
    · simp only [reembedUpdate, he, hv]
    · obtain ⟨_, hd, _⟩ := ensure_vec_table_ok_state db emb.length dbv hv
      rcases hf : dbv.rows.find? (fun r => r.id == existing_id) with _ | r
      · simp only [reembedUpdate, he, hv, hf]
        exact hd
      · simp only [reembedUpdate, he, hv, hf, insert_vector_details]
        exact hd

theorem insert_memory_fst_rows (db : DB) (mem : Row) (d : Option String) :
    (insert_memory db mem d).1.rows = db.rows ++ [{ mem with rowid := db.next_rowid }] := by
  unfold insert_memory
  split <;> rfl

theorem insert_memory_fst_vectors (db : DB) (mem : Row) (d : Option String) :
    (insert_memory db mem d).1.vectors = db.vectors := by
  unfold insert_memory
  split <;> rfl

theorem update_memory_fst_vectors (db : DB) (memory_id : String)
    (what why impact : Option String) (tags : Option (List String))
    (da : Option String) (now : String) :
    (update_memory db memory_id what why impact tags da now).1.vectors = db.vectors := by
  rcases hf : db.rows.find? (fun r => likeP memory_id r.id) with _ | hit
  · simp only [update_memory, hf]
  · simp only [update_memory, hf]

/-! ### C5: ensure_vec_table lifecycle -/

/-- C5: with no recorded dimension, `ensure_vec_table d` records `d` and
materializes the vec table, and a second call with the same `d` is a
no-error no-op; with a recorded dimension equal to `d` it succeeds and
changes nothing; with a different recorded dimension it fails with the
distinguished `DimensionMismatch` carrying the stored and the requested
dimension. -/
theorem ensure_vec_table_spec (db : DB) (d : Nat) :
    (db.embedding_dim = none →
      ∃ db1, ensure_vec_table db d = .ok db1 ∧ db1.embedding_dim = some d ∧
        db1.vec_table = true ∧ ensure_vec_table db1 d = .ok db1) ∧
    (db.embedding_dim = some d → ensure_vec_table db d = .ok db) ∧
    (∀ s, db.embedding_dim = some s → s ≠ d →
      ensure_vec_table db d = .error ⟨s, d⟩) := by
  refine ⟨fun h => ⟨{ db with embedding_dim := some d, vec_table := true }, ?_, rfl, rfl, ?_⟩,
    fun h => ?_, fun s h hne => ?_⟩
  · unfold ensure_vec_table; rw [h]
  · unfold ensure_vec_table; simp
  · unfold ensure_vec_table; rw [h]; simp
  · unfold ensure_vec_table; rw [h]; simp [hne]

theorem ensure_vec_table_spec_witness :
    ((⟨[], [], none, false, [], 1⟩ : DB).embedding_dim = none ∧
      (∃ db1, ensure_vec_table ⟨[], [], none, false, [], 1⟩ 384 = .ok db1 ∧
        db1.embedding_dim = some 384 ∧ db1.vec_table = true ∧
        ensure_vec_table db1 384 = .ok db1)) ∧
    (ensure_vec_table ⟨[], [], some 384, true, [], 1⟩ 384 =
      .ok ⟨[], [], some 384, true, [], 1⟩) ∧
    (ensure_vec_table ⟨[], [], some 384, true, [], 1⟩ 512 = .error ⟨384, 512⟩) :=
  ⟨⟨rfl, (ensure_vec_table_spec ⟨[], [], none, false, [], 1⟩ 384).1 rfl⟩,
    (ensure_vec_table_spec ⟨[], [], some 384, true, [], 1⟩ 384).2.1 rfl,
    (ensure_vec_table_spec ⟨[], [], some 384, true, [], 1⟩ 512).2.2 384 rfl (by decide)⟩

/-! ### C2: keyword tier of tiered search -/

/-- C2: whenever the initial keyword search (run with limit `2*limit`)
returns at least `min_fts_results` candidates, `tiered_search` returns the
top `limit` of those candidates with scores normalized by the batch
maximum, and neither the embedding provider nor the vector search is
invoked. -/
theorem tiered_search_keyword_tier (rank : String → Row → Option ℚ) (db : DB)
    (gw : Option Gateway) (query : String) (lim min_fts : Nat)
    (project source : Option String)
    (h : min_fts ≤ (fts_search rank db query (lim * 2) project source).length) :
    tiered_search rank db gw query lim min_fts project source =
      ⟨(normalizeScores (fts_search rank db query (lim * 2) project source)).take lim,
        false, false⟩ := by
  unfold tiered_search
  rw [if_pos]
  rw [normalizeScores_length]
  exact h

/-- A concrete BM25 oracle and database used by witnesses. -/
def wRank : String → Row → Option ℚ :=
  fun _ r => some ((r.what.length : ℚ))

def wRowA : Row :=
  ⟨1, "a", "t1", "alpha", none, none, [], none, "p", none, "f", "c", "u", 0⟩

def wRowB : Row :=
  ⟨2, "b", "t2", "beta", none, none, [], none, "p", none, "f", "c", "u", 0⟩

def wRowC : Row :=
  ⟨3, "c", "t3", "x", none, none, [], none, "p", none, "f", "c", "u", 0⟩

def wDB : DB := ⟨[wRowA, wRowB, wRowC], [], none, false, [], 4⟩

theorem tiered_search_keyword_tier_witness :
    3 ≤ (fts_search wRank wDB "q" (5 * 2) none none).length ∧
    (tiered_search wRank wDB none "q" 5 3 none none).embedInvoked = false :=
  ⟨by decide,
    by rw [tiered_search_keyword_tier wRank wDB none "q" 5 3 none none (by decide)]⟩

/-! ### C7: gateway failures degrade, never abort -/

/-- C7: every failure of the embedding provider or of the vector search
inside `tiered_search` is caught and the call returns the keyword-only
candidates truncated to `limit`; and an embedding failure inside `save`
is caught on both paths — on the create path the memory row (and detail)
is stored, no vector is written, and the normal "created" result is
returned; on the update path the matched memory is updated and the normal
"updated" result is returned. -/
theorem gateway_failure_degrades :
    (∀ (rank : String → Row → Option ℚ) (db : DB) (g : Gateway) (query : String)
        (lim min_fts : Nat) (project source : Option String),
      (g.search = .error () ∨ ∃ qv, g.search = .ok qv ∧ g.vecSearch qv = .error ()) →
      (tiered_search rank db (some g) query lim min_fts project source).results =
        (normalizeScores (fts_search rank db query (lim * 2) project source)).take lim) ∧
    (∀ (env : SaveEnv) (db : DB) (raw0 : RawMemoryInput) (project : String),
      env.embed = .error () →
      (dedupTop env db (redactRaw env.redact raw0) project = none →
        save env db raw0 project =
          ((insert_memory db (newMemory env (redactRaw env.redact raw0) project)
              (redactRaw env.redact raw0).details).1,
            ⟨env.newId, (newMemory env (redactRaw env.redact raw0) project).file_path,
              "created"⟩) ∧
        (save env db raw0 project).1.vectors = db.vectors) ∧
      (∀ top, dedupTop env db (redactRaw env.redact raw0) project = some top →
        save env db raw0 project =
          ((update_memory db top.row.id (some (redactRaw env.redact raw0).what)
              (redactRaw env.redact raw0).why (redactRaw env.redact raw0).impact
              (some (merge_tags top.row.tags (redactRaw env.redact raw0).tags))
              (detailsAppendOf env (redactRaw env.redact raw0)) env.now).1,
            ⟨top.row.id, top.row.file_path, "updated"⟩) ∧
        (save env db raw0 project).1.vectors = db.vectors)) := by
  constructor
  · intro rank db g query lim min_fts project source hfail
    rcases hfail with h | ⟨qv, h1, h2⟩
    · simp only [tiered_search, h]
      split <;> rfl
    · simp only [tiered_search, h1, h2]
      split <;> rfl
  · intro env db raw0 project hemb
    constructor
    · intro hnone
      constructor
      · simp only [save, hnone, hemb]
      · simp only [save, hnone, hemb]
        rw [insert_memory_fst_vectors]
    · intro top hsome
      constructor
      · simp only [save, hsome, hemb]
        simp only [reembedUpdate, hemb]
      · simp only [save, hsome, hemb]
        simp only [reembedUpdate, hemb]
        rw [update_memory_fst_vectors]

/-- Concrete inputs for the gateway-failure witness: a database whose one
memory is matched by the dedup probe with a matching title. -/
def wGW : Gateway := ⟨.error (), fun _ => .error ()⟩

def wEnv7 : SaveEnv :=
  ⟨fun _ _ => none, false, false, .error (), id, "id-7", "2026-10-12", "t"⟩

def wRaw7 : RawMemoryInput := ⟨"T", "w1", none, none, [], none, none, none⟩

def wRow7 : Row := ⟨1, "m1", "T", "w0", none, none, [], none, "p", none, "f", "c", "u", 0⟩

def wDB7 : DB := ⟨[wRow7], [], none, false, [], 2⟩

def wEnv7u : SaveEnv :=
  ⟨fun _ r => if r.id == "m1" then some 1 else none, false, false, .error (),
    id, "id-7u", "2026-10-12", "t"⟩

theorem gateway_failure_degrades_witness :
    ((tiered_search wRank wDB7 (some wGW) "q" 5 3 none none).results =
      (normalizeScores (fts_search wRank wDB7 "q" (5 * 2) none none)).take 5) ∧
    ((save wEnv7 wDB7 wRaw7 "p").1.vectors = wDB7.vectors) ∧
    ((save wEnv7u wDB7 wRaw7 "p").1.vectors = wDB7.vectors) :=
  ⟨gateway_failure_degrades.1 wRank wDB7 wGW "q" 5 3 none none (Or.inl rfl),
    ((gateway_failure_degrades.2 wEnv7 wDB7 wRaw7 "p" rfl).1 (by decide)).2,
    ((gateway_failure_degrades.2 wEnv7u wDB7 wRaw7 "p" rfl).2 ⟨wRow7, 1⟩
      (by with_unfolding_all decide)).2⟩

/-! ### C8: delete removes record, detail and searchability together -/

theorem likeP_trans {a b c : String} (h1 : likeP a b = true) (h2 : likeP b c = true) :
    likeP a c = true := by
  unfold likeP at *
  rw [List.isPrefixOf_iff_prefix] at *
  exact h1.trans h2

/-- C8: when the id (or prefix) `pre` resolves to row `r` and is
unambiguous among rows and detail keys, `delete_memory` reports success
and the one state it returns has the memory row gone, the detail row
gone, the point lookup by full id absent, the detail lookup by prefix and
by full id absent, a second prefix delete reporting not-found, and — for
any query whose matching terms are unique to the deleted memory (the
BM25 oracle matches no other row) — an empty keyword search. -/
theorem delete_memory_spec (db : DB) (pre : String) (r : Row)
    (hfind : db.rows.find? (fun x => likeP pre x.id) = some r)
    (hrows : ∀ x ∈ db.rows, likeP pre x.id = true → x.id = r.id)
    (hdet : ∀ p ∈ db.details, likeP pre p.1 = true → p.1 = r.id) :
    (delete_memory db pre).2 = true ∧
    (delete_memory db pre).1.rows = db.rows.filter (fun x => !(x.id == r.id)) ∧
    (delete_memory db pre).1.details = db.details.filter (fun p => !(p.1 == r.id)) ∧
    get_memory (delete_memory db pre).1 r.id = none ∧
    get_details (delete_memory db pre).1 pre = none ∧
    get_details (delete_memory db pre).1 r.id = none ∧
    (delete_memory (delete_memory db pre).1 pre).2 = false ∧
    ∀ (rank : String → Row → Option ℚ) (query : String) (lim : Nat)
      (project source : Option String),
      (∀ x ∈ db.rows, rank query x ≠ none → x.id = r.id) →
      fts_search rank (delete_memory db pre).1 query lim project source = [] := by
  have hpre_r : likeP pre r.id = true := by
    have := List.find?_some hfind
    simpa using this
  have hD : delete_memory db pre =
      ({ db with
          details := db.details.filter (fun p => !(p.1 == r.id))
          rows := db.rows.filter (fun x => !(x.id == r.id)) }, true) := by
    simp only [delete_memory, hfind]
  refine ⟨by rw [hD], by rw [hD], by rw [hD], ?_, ?_, ?_, ?_, ?_⟩
  · rw [get_memory, hD, List.find?_eq_none]
    intro x hx
    have := (List.mem_filter.mp hx).2
    simpa using this
  · rw [get_details, hD, List.find?_eq_none]
    intro p hp hlike
    obtain ⟨hmem, hpred⟩ := List.mem_filter.mp hp
    have : p.1 = r.id := hdet p hmem hlike
    simp [this] at hpred
  · rw [get_details, hD, List.find?_eq_none]
    intro p hp hlike
    obtain ⟨hmem, hpred⟩ := List.mem_filter.mp hp
    have : p.1 = r.id := hdet p hmem (likeP_trans hpre_r hlike)
    simp [this] at hpred
  · rw [hD]
    have hf2 : (db.rows.filter (fun x => !(x.id == r.id))).find?
        (fun x => likeP pre x.id) = none := by
      rw [List.find?_eq_none]
      intro x hx hlike
      obtain ⟨hmem, hpred⟩ := List.mem_filter.mp hx
      have : x.id = r.id := hrows x hmem hlike
      simp [this] at hpred
    simp only [delete_memory, hf2]
  · intro rank query lim project source hunique
    have hnone : ∀ x ∈ (delete_memory db pre).1.rows, rank query x = none := by
      intro x hx
      rw [hD] at hx
      obtain ⟨hmem, hpred⟩ := List.mem_filter.mp hx
      by_contra hne
      have : x.id = r.id := hunique x hmem hne
      simp [this] at hpred
    unfold fts_search
    rw [List.filterMap_eq_nil_iff.mpr (fun x hx => by rw [hnone x hx]; rfl)]
    simp

def wDB8 : DB :=
  ⟨[wRow7, ⟨2, "zz", "t", "w", none, none, [], none, "p", none, "f", "c", "u", 0⟩],
    [("m1", "body")], none, false, [], 3⟩

theorem delete_memory_spec_witness :
    (delete_memory wDB8 "M1").2 = true ∧
    get_memory (delete_memory wDB8 "M1").1 "m1" = none ∧
    get_details (delete_memory wDB8 "M1").1 "M1" = none ∧
    fts_search (fun _ r => if r.id == "m1" then some 1 else none)
      (delete_memory wDB8 "M1").1 "q" 10 none none = [] :=
  have h := delete_memory_spec wDB8 "M1" wRow7 (by decide)
    (by decide) (by decide)
  ⟨h.1, h.2.2.2.1, h.2.2.2.2.1, h.2.2.2.2.2.2.2
    (fun _ r => if r.id == "m1" then some 1 else none) "q" 10 none none
    (by with_unfolding_all decide)⟩

/-! ### C9: round-trip by full id and by prefix -/

theorem insert_memory_fst_details (db : DB) (mem : Row) (d : String) (hd : d ≠ "") :
    (insert_memory db mem (some d)).1.details = db.details ++ [(mem.id, d)] := by
  simp only [insert_memory]
  have hp : pyTruthy (some d) = true := by
    simp [pyTruthy, hd]
  rw [if_pos hp]
  simp

/-- C9 counterexample inputs: one inserted memory with a detail. -/
def exRow9 : Row :=
  ⟨0, "abcd1234", "T", "w", none, none, [], none, "p", none, "f", "c", "u", 0⟩

def exDB9 : DB := (insert_memory ⟨[], [], none, false, [], 1⟩ exRow9 (some "body")).1

/-- C9 counterexample: after inserting a memory (id "abcd1234") with a
detail, "abcd" is an unambiguous prefix of the only stored id, yet the
point lookup by that prefix returns absent — `MemoryDB.get_memory`
matches the full id exactly (`WHERE m.id = ?`), so fetching by an
unambiguous strict prefix does not succeed as the claim states. -/
theorem get_memory_prefix_counterexample :
    likeP "abcd" "abcd1234" = true ∧
    exDB9.rows.length = 1 ∧
    get_memory exDB9 "abcd1234" ≠ none ∧
    get_memory exDB9 "abcd" = none := by
  decide

/-- C9 (amended): after inserting a Memory with a Detail, fetching by the
full id through `get_memory` succeeds and returns the stored field
values, and fetching the Detail through the prefix-capable `get_details`
by the full id and by any unambiguous prefix returns the identical detail
row; but `get_memory` itself is an exact-match lookup, so fetching the
memory row by a strict prefix returns absent. -/
theorem insert_roundtrip (db : DB) (mem : Row) (d : String) (pre : String)
    (hd : d ≠ "")
    (hpre : likeP pre mem.id = true)
    (hfresh : ∀ x ∈ db.rows, x.id ≠ mem.id)
    (hpre_rows : ∀ x ∈ db.rows, x.id ≠ pre)
    (hpre_det : ∀ p ∈ db.details, likeP pre p.1 = false)
    (hne : pre ≠ mem.id) :
    get_memory (insert_memory db mem (some d)).1 mem.id =
      some { mem with rowid := db.next_rowid } ∧
    get_details (insert_memory db mem (some d)).1 pre = some (mem.id, d) ∧
    get_details (insert_memory db mem (some d)).1 mem.id = some (mem.id, d) ∧
    get_memory (insert_memory db mem (some d)).1 pre = none := by
  have hrows := insert_memory_fst_rows db mem (some d)
  have hdets := insert_memory_fst_details db mem d hd
  refine ⟨?_, ?_, ?_, ?_⟩
  · rw [get_memory, hrows, List.find?_append]
    have h1 : db.rows.find? (fun r => r.id == mem.id) = none := by
      rw [List.find?_eq_none]
      intro x hx
      simpa using hfresh x hx
    rw [h1]
    simp
  · rw [get_details, hdets, List.find?_append]
    have h1 : db.details.find? (fun p => likeP pre p.1) = none := by
      rw [List.find?_eq_none]
      intro p hp
      simp [hpre_det p hp]
    rw [h1]
    simp [hpre]
  · rw [get_details, hdets, List.find?_append]
    have h1 : db.details.find? (fun p => likeP mem.id p.1) = none := by
      rw [List.find?_eq_none]
      intro p hp hlike
      have : likeP pre p.1 = true := likeP_trans hpre hlike
      rw [hpre_det p hp] at this
      cases this
    rw [h1]
    have hself : likeP mem.id mem.id = true := by
      unfold likeP
      rw [List.isPrefixOf_iff_prefix]
    simp [hself]
  · rw [get_memory, hrows, List.find?_append]
    have h1 : db.rows.find? (fun r => r.id == pre) = none := by
      rw [List.find?_eq_none]
      intro x hx
      simpa using hpre_rows x hx
    rw [h1]
    have : mem.id ≠ pre := fun h => hne h.symm
    simp [this]

theorem insert_roundtrip_witness :
    get_memory exDB9 "abcd1234" = some { exRow9 with rowid := 1 } ∧
    get_details exDB9 "abcd" = some ("abcd1234", "body") ∧
    get_details exDB9 "abcd1234" = some ("abcd1234", "body") ∧
    get_memory exDB9 "abcd" = none :=
  insert_roundtrip ⟨[], [], none, false, [], 1⟩ exRow9 "body" "abcd"
    (by decide) (by decide) (by decide) (by decide) (by decide) (by decide)

/-! ### C10: ambiguous prefixes resolve to the first match, no check -/

theorem filter_ne_id_length (rows : List Row) (r1 : Row) (h1 : r1 ∈ rows)
    (hids : (rows.map Row.id).Nodup) :
    (rows.filter (fun x => !(x.id == r1.id))).length + 1 = rows.length := by
  induction rows with
  | nil => cases h1
  | cons x xs ih =>
    rw [List.map_cons, List.nodup_cons] at hids
    rcases List.mem_cons.mp h1 with heq | hmem
    · subst heq
      rw [List.filter_cons]
      have hh : (!(r1.id == r1.id)) = false := by simp
      rw [hh]
      simp only [Bool.false_eq_true, if_false]
      have hfe : xs.filter (fun x => !(x.id == r1.id)) = xs := by
        rw [List.filter_eq_self]
        intro a ha
        have : a.id ≠ r1.id := by
          intro hcontra
          exact hids.1 (hcontra ▸ List.mem_map_of_mem Row.id ha)
        simpa using this
      rw [hfe, List.length_cons]
    · have hx : x.id ≠ r1.id := by
        intro hcontra
        exact hids.1 (by rw [hcontra]; exact List.mem_map_of_mem Row.id hmem)
      rw [List.filter_cons]
      have hh : (!(x.id == r1.id)) = true := by simpa using hx
      rw [hh]
      simp only [if_true]
      rw [List.length_cons, Nat.succ_add]
      exact congrArg Nat.succ (ih hmem hids.2)

/-- C10: when an id prefix matches more than one stored memory, none of
`update_memory`, `delete_memory`, `get_details` raises or checks
uniqueness: each resolves the prefix to the first matching row the
database returns, affects or returns only that record, and reports
success (`update_memory` leaves every other-id row unchanged;
`delete_memory` removes exactly one row and keeps all others;
`get_details` returns the first matching detail row). -/
theorem prefix_ambiguity_unchecked (db : DB) (pre : String) (r1 : Row) (now : String)
    (what why impact : Option String) (tags : Option (List String)) (da : Option String)
    (hfind : db.rows.find? (fun x => likeP pre x.id) = some r1)
    (hamb : 2 ≤ (db.rows.filter (fun x => likeP pre x.id)).length)
    (hids : (db.rows.map Row.id).Nodup) :
    ((update_memory db pre what why impact tags da now).2 = true ∧
      ∀ x ∈ db.rows, x.id ≠ r1.id →
        x ∈ (update_memory db pre what why impact tags da now).1.rows) ∧
    ((delete_memory db pre).2 = true ∧
      (delete_memory db pre).1.rows.length + 1 = db.rows.length ∧
      ∀ x ∈ db.rows, x.id ≠ r1.id → x ∈ (delete_memory db pre).1.rows) ∧
    (∀ p1, db.details.find? (fun p => likeP pre p.1) = some p1 →
      get_details db pre = some p1) := by
  have hr1 : r1 ∈ db.rows := List.mem_of_find?_eq_some hfind
  refine ⟨⟨?_, ?_⟩, ⟨?_, ?_, ?_⟩, ?_⟩
  · simp only [update_memory, hfind]
  · intro x hx hne
    have hpred : (x.id == r1.id) = false := by simpa using hne
    simp only [update_memory, hfind]
    refine List.mem_map.mpr ⟨x, hx, ?_⟩
    simp only [hpred, Bool.false_eq_true, if_false]
  · simp only [delete_memory, hfind]
  · simp only [delete_memory, hfind]
    exact filter_ne_id_length db.rows r1 hr1 hids
  · intro x hx hne
    simp only [delete_memory, hfind]
    rw [List.mem_filter]
    refine ⟨hx, ?_⟩
    simpa using hne
  · intro p1 hp1
    rw [get_details, hp1]

def wDB10 : DB :=
  ⟨[⟨1, "ab1", "t1", "w1", none, none, [], none, "p", none, "f", "c", "u", 0⟩,
    ⟨2, "ab2", "t2", "w2", none, none, [], none, "p", none, "f", "c", "u", 0⟩],
    [("ab1", "d1"), ("ab2", "d2")], none, false, [], 3⟩

theorem prefix_ambiguity_unchecked_witness :
    (update_memory wDB10 "ab" (some "nw") none none none none "t").2 = true ∧
    (delete_memory wDB10 "ab").2 = true ∧
    (delete_memory wDB10 "ab").1.rows.length + 1 = wDB10.rows.length ∧
    get_details wDB10 "ab" = some ("ab1", "d1") :=
  have h := prefix_ambiguity_unchecked wDB10 "ab"
    ⟨1, "ab1", "t1", "w1", none, none, [], none, "p", none, "f", "c", "u", 0⟩
    "t" (some "nw") none none none none (by decide) (by decide) (by decide)
  ⟨h.1.1, h.2.1.1, h.2.1.2.1, h.2.2 ("ab1", "d1") (by decide)⟩

/-! ### C1: the dedup decision of save -/

theorem filterOk_none (c : Cand) : filterOk none none c = true := rfl

theorem filterOk_project {p : String} {src : Option String} {c : Cand}
    (h : filterOk (some p) src c = true) : c.row.project = p := by
  unfold filterOk at h
  rw [Bool.and_eq_true] at h
  have := h.1
  simpa using this

/-- Any member of a project-filtered keyword search is a row of the
database whose project is the filter value. -/
theorem mem_fts_search_project {rank : String → Row → Option ℚ} {db : DB}
    {q : String} {lim : Nat} {p : String} {src : Option String} {c : Cand}
    (h : c ∈ fts_search rank db q lim (some p) src) :
    c.row ∈ db.rows ∧ c.row.project = p := by
  unfold fts_search at h
  have h1 : c ∈ (db.rows.filterMap
      (fun r => (rank q r).map (fun s => Cand.mk r s))).filter (filterOk (some p) src) := by
    have h2 := List.mem_of_mem_take h
    rwa [List.mem_insertionSort] at h2
  obtain ⟨hmem, hpred⟩ := List.mem_filter.mp h1
  obtain ⟨r, hr, heq⟩ := List.mem_filterMap.mp hmem
  rcases hrk : rank q r with _ | s <;> rw [hrk] at heq
  · cases heq
  · cases heq
    exact ⟨hr, filterOk_project hpred⟩

/-- When the project-scoped keyword probe is non-empty, the unfiltered
re-probe with a positive limit is non-empty as well (the project-scoped
match set is contained in the unfiltered one). -/
theorem fts_search_unfiltered_ne_nil (rank : String → Row → Option ℚ) (db : DB)
    (q : String) (lim : Nat) (hlim : 0 < lim) (p : String)
    (h : fts_search rank db q lim (some p) none ≠ []) :
    fts_search rank db q lim none none ≠ [] := by
  rw [← List.length_pos] at h ⊢
  unfold fts_search at h ⊢
  rw [List.length_take, List.length_insertionSort, lt_min_iff] at h ⊢
  refine ⟨hlim, ?_⟩
  rw [List.filter_eq_self.mpr (fun a _ => filterOk_none a)]
  calc 0 < _ := h.2
    _ ≤ _ := List.length_filter_le _ _

/-- The normalization denominator exactly as the claim states it: the
max score of the unfiltered top-5 re-probe when exactly one
project-scoped candidate exists, else the max score among the
project-scoped candidates. -/
def claimDenominator (env : SaveEnv) (db : DB) (raw : RawMemoryInput)
    (candidates : List Cand) : ℚ :=
  if candidates.length = 1 then
    scoresMax (fts_search env.rank db (dedupQuery raw) 5 none none)
  else scoresMax candidates

/-- `top.score / denominator`, `0` when the denominator is not positive. -/
def claimNormalized (denom : ℚ) (top : Cand) : ℚ :=
  if 0 < denom then top.score / denom else 0

theorem claimNormalized_def (denom : ℚ) (top : Cand) :
    claimNormalized denom top = if 0 < denom then top.score / denom else 0 := rfl

theorem save_action_updated_iff (env : SaveEnv) (db : DB) (raw0 : RawMemoryInput)
    (project : String) :
    (save env db raw0 project).2.action = "updated" ↔
      ∃ top, dedupTop env db (redactRaw env.redact raw0) project = some top := by
  rcases h : dedupTop env db (redactRaw env.redact raw0) project with _ | top
  · simp only [save, h]
    constructor
    · intro hc
      exact absurd hc (by decide)
    · rintro ⟨t, ht⟩
      cases ht
  · simp only [save, h]
    exact ⟨fun _ => ⟨top, rfl⟩, fun _ => by trivial⟩

theorem dedupTop_some_iff (env : SaveEnv) (db : DB) (raw : RawMemoryInput)
    (project : String) (hp : env.probeFails = false)
    (hb : env.broadProbeFails = false) (t : Cand) :
    dedupTop env db raw project = some t ↔
      ∃ rest,
        fts_search env.rank db (dedupQuery raw) 5 (some project) none = t :: rest ∧
        (7 : ℚ)/10 ≤ claimNormalized (claimDenominator env db raw (t :: rest)) t ∧
        strLower (strStrip raw.title) = strLower (strStrip t.row.title) := by
  have hprobe : dedupProbe env db raw project =
      fts_search env.rank db (dedupQuery raw) 5 (some project) none := by
    simp [dedupProbe, hp]
  rcases hc : fts_search env.rank db (dedupQuery raw) 5 (some project) none
    with _ | ⟨top, rest⟩
  · constructor
    · intro ht
      simp only [dedupTop, hprobe, hc] at ht
      cases ht
    · rintro ⟨rest, hcon, _⟩
      cases hcon
  · have hbne : dedupBroad env db raw (top :: rest) ≠ [] ∧
        scoresMax (dedupBroad env db raw (top :: rest)) =
          claimDenominator env db raw (top :: rest) := by
      unfold dedupBroad claimDenominator
      by_cases hlen : (top :: rest).length = 1
      · rw [if_pos hlen, if_pos hlen, hb]
        have hun : fts_search env.rank db (dedupQuery raw) 5 none none ≠ [] :=
          fts_search_unfiltered_ne_nil env.rank db (dedupQuery raw) 5 (by decide) project
            (by rw [hc]; exact List.cons_ne_nil _ _)
        have hie : (fts_search env.rank db (dedupQuery raw) 5 none none).isEmpty = false := by
          rw [List.isEmpty_eq_false]
          exact hun
        simp only [Bool.false_eq_true, if_false, hie]
        exact ⟨hun, by simp⟩
      · rw [if_neg hlen, if_neg hlen]
        exact ⟨List.cons_ne_nil _ _, rfl⟩
    have hie : (dedupBroad env db raw (top :: rest)).isEmpty = false := by
      rw [List.isEmpty_eq_false]
      exact hbne.1
    have hden : (if (dedupBroad env db raw (top :: rest)).isEmpty then 0
        else scoresMax (dedupBroad env db raw (top :: rest))) =
        claimDenominator env db raw (top :: rest) := by
      rw [hie]
      simp only [Bool.false_eq_true, if_false]
      exact hbne.2
    constructor
    · intro ht
      simp only [dedupTop, hprobe, hc, hden] at ht
      rw [← claimNormalized_def] at ht
      by_cases hcond : (7 : ℚ)/10 ≤ claimNormalized
          (claimDenominator env db raw (top :: rest)) top ∧
          (strLower (strStrip raw.title) == strLower (strStrip top.row.title)) = true
      · rw [if_pos hcond] at ht
        cases ht
        exact ⟨rest, rfl, hcond.1, beq_iff_eq.mp hcond.2⟩
      · rw [if_neg hcond] at ht
        cases ht
    · rintro ⟨rest', hcon, hsc, hti⟩
      rw [List.cons.injEq] at hcon
      obtain ⟨h1, h2⟩ := hcon
      subst h1
      subst h2
      simp only [dedupTop, hprobe, hc, hden]
      rw [← claimNormalized_def]
      rw [if_pos ⟨hsc, beq_iff_eq.mpr hti⟩]

/-- C1: with the probes not raising, `save` takes the update path exactly
when the project-scoped top-5 keyword probe on the redacted
`title + " " + what` string is non-empty, its top candidate's score
normalized by the claim's denominator (unfiltered re-probe max when
exactly one project-scoped candidate exists, else the project-scoped max)
is at least 0.7, and the incoming title equals the top candidate's title
after stripping and lowercasing; an empty probe therefore always creates;
and whenever the update path is taken the updated record is a row of the
database whose project is the target project, so the same pair saved into
two different projects never merges into one record. -/
theorem save_dedup_decision (env : SaveEnv) (db : DB) (raw0 : RawMemoryInput)
    (project : String)
    (hp : env.probeFails = false) (hb : env.broadProbeFails = false) :
    ((save env db raw0 project).2.action = "updated" ↔
      ∃ top rest,
        fts_search env.rank db (dedupQuery (redactRaw env.redact raw0)) 5
          (some project) none = top :: rest ∧
        (7 : ℚ)/10 ≤ claimNormalized
          (claimDenominator env db (redactRaw env.redact raw0) (top :: rest)) top ∧
        strLower (strStrip raw0.title) = strLower (strStrip top.row.title)) ∧
    ((save env db raw0 project).2.action = "updated" →
      ∃ r, r ∈ db.rows ∧ r.id = (save env db raw0 project).2.id ∧
        r.project = project) := by
  constructor
  · rw [save_action_updated_iff]
    constructor
    · rintro ⟨t, ht⟩
      obtain ⟨rest, h1, h2, h3⟩ :=
        (dedupTop_some_iff env db (redactRaw env.redact raw0) project hp hb t).mp ht
      exact ⟨t, rest, h1, h2, h3⟩
    · rintro ⟨t, rest, h1, h2, h3⟩
      exact ⟨t, (dedupTop_some_iff env db (redactRaw env.redact raw0) project hp hb t).mpr
        ⟨rest, h1, h2, h3⟩⟩
  · intro hupd
    obtain ⟨t, ht⟩ := (save_action_updated_iff env db raw0 project).mp hupd
    obtain ⟨rest, h1, _, _⟩ :=
      (dedupTop_some_iff env db (redactRaw env.redact raw0) project hp hb t).mp ht
    have hmem : t ∈ fts_search env.rank db (dedupQuery (redactRaw env.redact raw0)) 5
        (some project) none := by
      rw [h1]
      exact List.mem_cons_self _ _
    obtain ⟨hrow, hproj⟩ := mem_fts_search_project hmem
    have hid : (save env db raw0 project).2.id = t.row.id := by
      simp only [save, ht]
    exact ⟨t.row, hrow, by rw [hid], hproj⟩

/-- C1 and C6 concrete inputs: a database with one memory matched by the
probe oracle under an equal title, and an incoming memory carrying no
`why`. -/
def exEnv6 : SaveEnv :=
  ⟨fun _ r => if r.id == "m1" then some 1 else none, false, false, .error (),
    id, "u6", "2026-10-12", "t6"⟩

def exRow6 : Row :=
  ⟨1, "m1", "T", "w0", some "old why", none, ["keep"], none, "proj", none, "f", "c", "u", 0⟩

def exDB6 : DB := ⟨[exRow6], [], none, false, [], 2⟩

def exRaw6 : RawMemoryInput := ⟨"T", "w1", none, none, ["new"], none, none, none⟩

theorem save_dedup_decision_witness :
    (save exEnv6 exDB6 exRaw6 "proj").2.action = "updated" :=
  (save_dedup_decision exEnv6 exDB6 exRaw6 "proj" rfl rfl).1.mpr
    ⟨⟨exRow6, 1⟩, [], by with_unfolding_all decide, by with_unfolding_all decide,
      by with_unfolding_all decide⟩

/-! ### C6: effects of the dedup update path -/

theorem update_memory_fst (db : DB) (mid : String) (what why impact : Option String)
    (tags : Option (List String)) (da : Option String) (now : String) (hit : Row)
    (hfind : db.rows.find? (fun r => likeP mid r.id) = some hit) :
    (update_memory db mid what why impact tags da now).1.rows =
      db.rows.map (fun r =>
        if r.id == hit.id then
          { r with
            updated_count := r.updated_count + 1
            updated_at := now
            what := what.getD r.what
            why := if why.isSome then why else r.why
            impact := if impact.isSome then impact else r.impact
            tags := tags.getD r.tags }
        else r) := by
  simp only [update_memory, hfind]

theorem update_memory_fst_dets (db : DB) (mid : String) (what why impact : Option String)
    (tags : Option (List String)) (da : Option String) (now : String) (hit : Row)
    (hfind : db.rows.find? (fun r => likeP mid r.id) = some hit) :
    (update_memory db mid what why impact tags da now).1.details =
      if pyTruthy da then
        (if db.details.any (fun p => p.1 == hit.id) then
          db.details.map (fun p =>
            if p.1 == hit.id then (p.1, p.2 ++ "\n\n" ++ da.getD "") else p)
        else db.details ++ [(hit.id, da.getD "")])
      else db.details := by
  simp only [update_memory, hfind]

theorem sepString_ne_empty (t d : String) :
    ("--- updated " ++ t ++ " ---\n" ++ d) ≠ "" := by
  intro h
  have hl := congrArg String.length h
  rw [String.length_append, String.length_append, String.length_append] at hl
  have h12 : "--- updated ".length = 12 := rfl
  have hz : ("" : String).length = 0 := rfl
  rw [h12, hz] at hl
  omega

theorem pyTruthy_detailsAppendOf (env : SaveEnv) (raw : RawMemoryInput) :
    pyTruthy (detailsAppendOf env raw) = pyTruthy raw.details := by
  unfold detailsAppendOf
  by_cases h : pyTruthy raw.details = true
  · rw [if_pos h, h]
    have hne := sepString_ne_empty env.today (raw.details.getD "")
    simp [pyTruthy, hne]
  · have h' : pyTruthy raw.details = false := by
      cases hb : pyTruthy raw.details
      · rfl
      · exact absurd hb h
    rw [if_neg h, h']
    rfl

/-- C6 (amended): on the dedup update path `save` returns the matched id
with action "updated" and, in the stored record, replaces `what` with the
incoming (redacted) value, replaces `why` and `impact` only when the
incoming value is present (preserving the stored value otherwise),
replaces the tags with the case-insensitive union (existing order first,
new tags appended), increments the update counter by exactly one, and,
when incoming details are present, appends them to the existing Detail
body after a blank line and the dated separator line (creating the Detail
row if none exists); without incoming details the Detail table is
untouched. -/
theorem save_update_path_effects (env : SaveEnv) (db : DB) (raw0 : RawMemoryInput)
    (project : String) (top : Cand)
    (htop : dedupTop env db (redactRaw env.redact raw0) project = some top)
    (hfind : db.rows.find? (fun r => likeP top.row.id r.id) = some top.row) :
    (save env db raw0 project).2 = ⟨top.row.id, top.row.file_path, "updated"⟩ ∧
    (save env db raw0 project).1.rows = db.rows.map (fun r =>
      if r.id == top.row.id then
        { r with
          updated_count := r.updated_count + 1
          updated_at := env.now
          what := (redactRaw env.redact raw0).what
          why := if (redactRaw env.redact raw0).why.isSome
            then (redactRaw env.redact raw0).why else r.why
          impact := if (redactRaw env.redact raw0).impact.isSome
            then (redactRaw env.redact raw0).impact else r.impact
          tags := merge_tags top.row.tags (redactRaw env.redact raw0).tags }
      else r) ∧
    (pyTruthy (redactRaw env.redact raw0).details = true →
      (save env db raw0 project).1.details =
        (if db.details.any (fun p => p.1 == top.row.id) then
          db.details.map (fun p => if p.1 == top.row.id then
            (p.1, p.2 ++ "\n\n" ++ ("--- updated " ++ env.today ++ " ---\n" ++
              (redactRaw env.redact raw0).details.getD "")) else p)
        else db.details ++ [(top.row.id, "--- updated " ++ env.today ++ " ---\n" ++
          (redactRaw env.redact raw0).details.getD "")])) ∧
    (pyTruthy (redactRaw env.redact raw0).details = false →
      (save env db raw0 project).1.details = db.details) := by
  refine ⟨?_, ?_, ?_, ?_⟩
  · simp only [save, htop]
  · simp only [save, htop]
    rw [reembedUpdate_rows]
    rw [update_memory_fst _ _ _ _ _ _ _ _ _ hfind]
    simp only [Option.getD_some]
  · intro hdet
    simp only [save, htop]
    rw [reembedUpdate_details]
    rw [update_memory_fst_dets _ _ _ _ _ _ _ _ _ hfind]
    rw [pyTruthy_detailsAppendOf, hdet]
    simp only [if_true]
    unfold detailsAppendOf
    rw [if_pos hdet]
    simp only [Option.getD_some]
  · intro hdet
    simp only [save, htop]
    rw [reembedUpdate_details]
    rw [update_memory_fst_dets _ _ _ _ _ _ _ _ _ hfind]
    rw [pyTruthy_detailsAppendOf, hdet]
    rfl

theorem save_update_path_effects_witness :
    (save exEnv6 exDB6 exRaw6 "proj").2 = ⟨"m1", "f", "updated"⟩ :=
  (save_update_path_effects exEnv6 exDB6 exRaw6 "proj" ⟨exRow6, 1⟩
    (by with_unfolding_all decide) (by decide)).1

/-- C6 counterexample: an incoming memory with `why = none` takes the
update path, and the stored record keeps its previous `why` instead of
having it replaced by the incoming absent value — `update_memory` only
replaces supplied fields, against the claim's "whatever its
optional-field values". The update counter does increment by one. -/
theorem save_update_why_counterexample :
    exRaw6.why = none ∧
    (save exEnv6 exDB6 exRaw6 "proj").2.action = "updated" ∧
    (save exEnv6 exDB6 exRaw6 "proj").1.rows.map Row.why = [some "old why"] ∧
    (save exEnv6 exDB6 exRaw6 "proj").1.rows.map Row.updated_count = [1] := by
  with_unfolding_all decide

/-! ### C3 and C4: the merge algorithm -/

/-- Record identifiers of a result list. -/
def idsOf (l : List Cand) : List String := l.map (fun c => c.row.id)

/-- First entry of a result list carrying the given identifier. -/
def findById (l : List Cand) (k : String) : Option Cand :=
  l.find? (fun c => c.row.id == k)

/-- The keyword contribution of identifier `k` to a combined score: its
weighted normalized keyword score when present, `0` when absent. -/
def ftsTerm (fw : ℚ) (ftsN : List Cand) (k : String) : ℚ :=
  match findById ftsN k with
  | some c => fw * c.score
  | none => 0

/-- The vector contribution of identifier `k`: its weighted normalized
vector score when present, `0` (no penalty) when absent. -/
def vecTerm (vw : ℚ) (vecN : List Cand) (k : String) : ℚ :=
  match findById vecN k with
  | some c => vw * c.score
  | none => 0

/-- The combined score the spec describes:
`fts_weight * normalized_fts + vec_weight * normalized_vec`, each term
dropped when the record is absent from that list. -/
def combinedScore (fw vw : ℚ) (ftsN vecN : List Cand) (k : String) : ℚ :=
  ftsTerm fw ftsN k + vecTerm vw vecN k

theorem findById_eq_none {l : List Cand} {k : String} (h : k ∉ idsOf l) :
    findById l k = none := by
  rw [findById, List.find?_eq_none]
  intro c hc hbeq
  exact h (beq_iff_eq.mp hbeq ▸ List.mem_map_of_mem (fun c => c.row.id) hc)

theorem findById_self {l : List Cand} (hl : (idsOf l).Nodup) {c : Cand}
    (hc : c ∈ l) : findById l c.row.id = some c := by
  induction l with
  | nil => cases hc
  | cons x xs ih =>
    rw [idsOf, List.map_cons, List.nodup_cons] at hl
    rcases List.mem_cons.mp hc with heq | hmem
    · subst heq
      rw [findById, List.find?_cons_of_pos]
      simp
    · have hne : x.row.id ≠ c.row.id := by
        intro hcontra
        exact hl.1 (hcontra ▸ List.mem_map_of_mem (fun c => c.row.id) hmem)
      rw [findById, List.find?_cons_of_neg]
      · exact ih hl.2 hmem
      · simpa using hne

/-- The keyword pass of `merge_results`: with fresh, pairwise-distinct
identifiers the dict assignments are pure appends. -/
theorem foldl_dictSetF_fresh (fw : ℚ) :
    ∀ (l acc : List Cand), (∀ c ∈ l, ∀ x ∈ acc, ¬ x.row.id = c.row.id) →
      (idsOf l).Nodup →
      l.foldl (dictSetF fw) acc =
        acc ++ l.map (fun c => { c with score := fw * c.score }) := by
  intro l
  induction l with
  | nil =>
    intro acc _ _
    simp
  | cons c cs ih =>
    intro acc hfresh hnodup
    rw [idsOf, List.map_cons, List.nodup_cons] at hnodup
    have hstep : dictSetF fw acc c = acc ++ [{ c with score := fw * c.score }] := by
      unfold dictSetF
      rw [if_neg]
      intro hany
      obtain ⟨x, hx, hbeq⟩ := List.any_eq_true.mp hany
      exact hfresh c (List.mem_cons_self c cs) x hx (beq_iff_eq.mp hbeq)
    have hfresh2 : ∀ d ∈ cs, ∀ x ∈ acc ++ [{ c with score := fw * c.score }],
        ¬ x.row.id = d.row.id := by
      intro d hd x hx
      rcases List.mem_append.mp hx with hxa | hxc
      · exact hfresh d (List.mem_cons_of_mem c hd) x hxa
      · have hxc' : x = { c with score := fw * c.score } := List.mem_singleton.mp hxc
        subst hxc'
        intro hcontra
        exact hnodup.1 (hcontra ▸ List.mem_map_of_mem (fun c => c.row.id) hd)
    rw [List.foldl_cons, hstep, ih _ hfresh2 hnodup.2, List.map_cons,
      List.append_assoc, List.singleton_append]

theorem bool_eq_of_iff {a b : Bool} (h : a = true ↔ b = true) : a = b := by
  cases a <;> cases b <;> simp_all

/-- A map that preserves identifiers does not change id-membership tests. -/
theorem any_id_map_preserve (acc : List Cand) (f : Cand → Cand)
    (hf : ∀ x, (f x).row.id = x.row.id) (k : String) :
    (acc.map f).any (fun x => x.row.id == k) = acc.any (fun x => x.row.id == k) := by
  induction acc with
  | nil => rfl
  | cons a as ih =>
    rw [List.map_cons, List.any_cons, List.any_cons, ih, hf a]

/-- The vector pass of `merge_results`: with pairwise-distinct identifiers
it patches the existing entries in place and appends the new ones in
list order. -/
theorem foldl_dictAddV_eq (vw : ℚ) :
    ∀ (l acc : List Cand), (idsOf l).Nodup →
      l.foldl (dictAddV vw) acc =
        acc.map (fun x => match findById l x.row.id with
          | some c => { x with score := x.score + vw * c.score }
          | none => x) ++
        (l.filter (fun c => !(acc.any (fun x => x.row.id == c.row.id)))).map
          (fun c => { c with score := vw * c.score }) := by
  intro l
  induction l with
  | nil =>
    intro acc _
    simp [findById]
  | cons c cs ih =>
    intro acc hnodup
    rw [idsOf, List.map_cons, List.nodup_cons] at hnodup
    have hcid : c.row.id ∉ idsOf cs := hnodup.1
    have hfind_cons_ne : ∀ x : Cand, x.row.id ≠ c.row.id →
        findById (c :: cs) x.row.id = findById cs x.row.id := by
      intro x hx
      rw [findById, findById, List.find?_cons_of_neg]
      simpa using fun hcontra => hx hcontra.symm
    rw [List.foldl_cons]
    by_cases hany : acc.any (fun x => x.row.id == c.row.id) = true
    · have hstep : dictAddV vw acc c = acc.map (fun x =>
          if x.row.id == c.row.id
          then { x with score := x.score + vw * c.score } else x) := by
        unfold dictAddV
        rw [if_pos hany]
      rw [hstep, ih _ hnodup.2]
      congr 1
      · rw [List.map_map]
        apply List.map_congr_left
        intro x _
        by_cases hx : (x.row.id == c.row.id) = true
        · have hxid : x.row.id = c.row.id := beq_iff_eq.mp hx
          have h1 : findById cs x.row.id = none := findById_eq_none (hxid ▸ hcid)
          have h2 : findById (c :: cs) x.row.id = some c := by
            rw [findById, List.find?_cons_of_pos]
            simpa using hxid.symm
          simp only [Function.comp_apply, if_pos hx, h2]
          have h1' : findById cs ({ x with score := x.score + vw * c.score } : Cand).row.id
              = none := h1
          rw [h1']
        · have h2 := hfind_cons_ne x (by simpa using hx)
          simp only [Function.comp_apply, if_neg hx, h2]
      · rw [List.filter_cons]
        have hc_pred : (!(acc.any (fun x => x.row.id == c.row.id))) = false := by
          rw [hany]
          rfl
        rw [hc_pred]
        simp only [Bool.false_eq_true, if_false]
        apply congrArg
        apply List.filter_congr
        intro d _
        apply congrArg
        exact any_id_map_preserve acc _ (fun x => by
          by_cases hx : (x.row.id == c.row.id) = true
          · rw [if_pos hx]
          · rw [if_neg hx]) d.row.id
    · have hanyf : acc.any (fun x => x.row.id == c.row.id) = false := by
        cases hb : acc.any (fun x => x.row.id == c.row.id)
        · rfl
        · exact absurd hb hany
      have hfresh : ∀ x ∈ acc, x.row.id ≠ c.row.id := by
        intro x hx hcontra
        exact hany (List.any_eq_true.mpr ⟨x, hx, beq_iff_eq.mpr hcontra⟩)
      have hstep : dictAddV vw acc c = acc ++ [{ c with score := vw * c.score }] := by
        unfold dictAddV
        rw [if_neg]
        rw [hanyf]
        exact Bool.false_ne_true
      rw [hstep, ih _ hnodup.2, List.map_append]
      have hmap : acc.map (fun x => match findById cs x.row.id with
          | some d => { x with score := x.score + vw * d.score }
          | none => x) =
          acc.map (fun x => match findById (c :: cs) x.row.id with
            | some d => { x with score := x.score + vw * d.score }
            | none => x) := by
        apply List.map_congr_left
        intro x hx
        rw [hfind_cons_ne x (hfresh x hx)]
      have hsingle : ([{ c with score := vw * c.score }] : List Cand).map
          (fun x => match findById cs x.row.id with
            | some d => { x with score := x.score + vw * d.score }
            | none => x) = [{ c with score := vw * c.score }] := by
        have h1 : findById cs ({ c with score := vw * c.score } : Cand).row.id = none :=
          findById_eq_none hcid
        simp only [List.map_cons, List.map_nil, h1]
      have hnews : cs.filter (fun d =>
          !((acc ++ [{ c with score := vw * c.score }]).any
            (fun x => x.row.id == d.row.id))) =
          cs.filter (fun d => !(acc.any (fun x => x.row.id == d.row.id))) := by
        apply List.filter_congr
        intro d hd
        apply congrArg
        rw [List.any_append]
        have hcd : ({ c with score := vw * c.score } : Cand).row.id ≠ d.row.id := by
          intro hcontra
          exact hcid (hcontra ▸ List.mem_map_of_mem (fun c => c.row.id) hd)
        have : ([{ c with score := vw * c.score }] : List Cand).any
            (fun x => x.row.id == d.row.id) = false := by
          simp [hcd]
        rw [this, Bool.or_false]
      have hfilter_cons : (c :: cs).filter
          (fun d => !(acc.any (fun x => x.row.id == d.row.id))) =
          c :: cs.filter (fun d => !(acc.any (fun x => x.row.id == d.row.id))) := by
        rw [List.filter_cons, if_pos]
        rw [hanyf]
        rfl
      rw [hmap, hsingle, hnews, hfilter_cons, List.map_cons, List.append_assoc,
        List.singleton_append]

theorem idsOf_append (a b : List Cand) : idsOf (a ++ b) = idsOf a ++ idsOf b := by
  rw [idsOf, idsOf, idsOf, List.map_append]

theorem idsOf_scaled (f : Cand → Cand) (hf : ∀ x, (f x).row.id = x.row.id)
    (l : List Cand) : idsOf (l.map f) = idsOf l := by
  rw [idsOf, idsOf, List.map_map]
  apply List.map_congr_left
  intro x _
  exact hf x

/-- The dict built by the two passes of `merge_results` has pairwise
distinct identifiers and carries, for every entry, exactly the combined
weighted score of its identifier. -/
theorem mergeScores_spec (fw vw : ℚ) (ftsN vecN : List Cand)
    (hf : (idsOf ftsN).Nodup) (hv : (idsOf vecN).Nodup) :
    (idsOf (vecN.foldl (dictAddV vw) (ftsN.foldl (dictSetF fw) []))).Nodup ∧
    ∀ x ∈ vecN.foldl (dictAddV vw) (ftsN.foldl (dictSetF fw) []),
      x.score = combinedScore fw vw ftsN vecN x.row.id := by
  have hF : ftsN.foldl (dictSetF fw) [] =
      ftsN.map (fun c => { c with score := fw * c.score }) := by
    have h := foldl_dictSetF_fresh fw ftsN []
      (fun c _ x hx => absurd hx (List.not_mem_nil x)) hf
    simpa using h
  rw [hF, foldl_dictAddV_eq vw vecN _ hv]
  have hidsF : idsOf (ftsN.map (fun c => { c with score := fw * c.score })) = idsOf ftsN :=
    idsOf_scaled (fun c => { c with score := fw * c.score }) (fun _ => rfl) ftsN
  have hgid : ∀ x : Cand, (match findById vecN x.row.id with
      | some c => ({ x with score := x.score + vw * c.score } : Cand)
      | none => x).row.id = x.row.id := by
    intro x
    cases hfb : findById vecN x.row.id <;> simp [hfb]
  have hidsPatch : idsOf ((ftsN.map (fun c => { c with score := fw * c.score })).map
      (fun x => match findById vecN x.row.id with
        | some c => { x with score := x.score + vw * c.score }
        | none => x)) = idsOf ftsN := by
    rw [idsOf_scaled (fun x => match findById vecN x.row.id with
      | some c => { x with score := x.score + vw * c.score }
      | none => x) hgid, hidsF]
  constructor
  · rw [idsOf_append]
    apply List.Nodup.append
    · rw [hidsPatch]
      exact hf
    · have hsub : List.Sublist (idsOf ((vecN.filter (fun c =>
          !((ftsN.map (fun c => { c with score := fw * c.score })).any
            (fun x => x.row.id == c.row.id)))).map
          (fun c => { c with score := vw * c.score }))) (idsOf vecN) := by
        rw [idsOf_scaled (fun c => { c with score := vw * c.score }) (fun _ => rfl)]
        exact (List.filter_sublist vecN).map _
      exact hv.sublist hsub
    · intro k hk1 hk2
      rw [hidsPatch] at hk1
      rw [idsOf_scaled (fun c => { c with score := vw * c.score }) (fun _ => rfl),
        idsOf] at hk2
      obtain ⟨d, hd, hdk⟩ := List.mem_map.mp hk2
      obtain ⟨hdmem, hdpred⟩ := List.mem_filter.mp hd
      subst hdk
      obtain ⟨z, hz, hzk⟩ := List.mem_map.mp hk1
      have hzF : ({ z with score := fw * z.score } : Cand) ∈
          ftsN.map (fun c => { c with score := fw * c.score }) :=
        List.mem_map_of_mem _ hz
      have : (ftsN.map (fun c => { c with score := fw * c.score })).any
          (fun x => x.row.id == d.row.id) = true :=
        List.any_eq_true.mpr ⟨_, hzF, beq_iff_eq.mpr hzk⟩
      rw [this] at hdpred
      cases hdpred
  · intro x hx
    rcases List.mem_append.mp hx with hx1 | hx2
    · obtain ⟨y, hy, hgy⟩ := List.mem_map.mp hx1
      obtain ⟨z, hz, hzy⟩ := List.mem_map.mp hy
      subst hzy
      have hft : findById ftsN z.row.id = some z := findById_self hf hz
      cases hfb : findById vecN z.row.id with
      | none =>
        rw [hfb] at hgy
        subst hgy
        rw [combinedScore, ftsTerm, vecTerm, hft, hfb, add_zero]
      | some cv =>
        rw [hfb] at hgy
        subst hgy
        rw [combinedScore, ftsTerm, vecTerm, hft, hfb]
    · obtain ⟨d, hd, hdx⟩ := List.mem_map.mp hx2
      obtain ⟨hdmem, hdpred⟩ := List.mem_filter.mp hd
      subst hdx
      have hnotF : d.row.id ∉ idsOf ftsN := by
        intro hcontra
        rw [idsOf] at hcontra
        obtain ⟨z, hz, hzk⟩ := List.mem_map.mp hcontra
        have hzF : ({ z with score := fw * z.score } : Cand) ∈
            ftsN.map (fun c => { c with score := fw * c.score }) :=
          List.mem_map_of_mem _ hz
        have : (ftsN.map (fun c => { c with score := fw * c.score })).any
            (fun x => x.row.id == d.row.id) = true :=
          List.any_eq_true.mpr ⟨_, hzF, beq_iff_eq.mpr hzk⟩
        rw [this] at hdpred
        cases hdpred
      have hvt : findById vecN d.row.id = some d := findById_self hv hdmem
      rw [combinedScore, ftsTerm, vecTerm, findById_eq_none hnotF, hvt, zero_add]

theorem idsOf_normalizeScores (l : List Cand) : idsOf (normalizeScores l) = idsOf l := by
  unfold normalizeScores
  split
  · rfl
  · exact idsOf_scaled
      (fun c => { c with score :=
        if 0 < (if scoresMax l = 0 then 1 else scoresMax l)
        then c.score / (if scoresMax l = 0 then 1 else scoresMax l) else 0 })
      (fun _ => rfl) l


theorem mem_merge_results {fts vec : List Cand} {fw vw : ℚ} {lim : Nat} {c : Cand}
    (hc : c ∈ merge_results fts vec fw vw lim) :
    c ∈ (normalizeScores vec).foldl (dictAddV vw)
      ((normalizeScores fts).foldl (dictSetF fw) []) := by
  unfold merge_results at hc
  have h := List.mem_of_mem_take hc
  rwa [List.mem_insertionSort] at h

/-- C3: with the (rowid-keyed, hence duplicate-free) search results as
inputs, `merge_results` emits each record identifier at most once, gives
every emitted record exactly the score
`fts_weight * normalized_fts + vec_weight * normalized_vec` — a record
absent from one list contributing only the other weighted term, with no
penalty —, sorts the output by combined score descending, and truncates
it to `limit` entries. -/
theorem merge_results_spec (fts vec : List Cand) (fw vw : ℚ) (lim : Nat)
    (hf : (idsOf fts).Nodup) (hv : (idsOf vec).Nodup) :
    (idsOf (merge_results fts vec fw vw lim)).Nodup ∧
    (∀ c ∈ merge_results fts vec fw vw lim,
      c.score = combinedScore fw vw (normalizeScores fts) (normalizeScores vec) c.row.id) ∧
    List.Pairwise (fun a b => b.score ≤ a.score) (merge_results fts vec fw vw lim) ∧
    (merge_results fts vec fw vw lim).length ≤ lim := by
  have hfN : (idsOf (normalizeScores fts)).Nodup := by
    rw [idsOf_normalizeScores]
    exact hf
  have hvN : (idsOf (normalizeScores vec)).Nodup := by
    rw [idsOf_normalizeScores]
    exact hv
  obtain ⟨hnodup, hscore⟩ := mergeScores_spec fw vw (normalizeScores fts) (normalizeScores vec) hfN hvN
  refine ⟨?_, ?_, ?_, ?_⟩
  · unfold merge_results
    have hperm := List.perm_insertionSort candGE
      ((normalizeScores vec).foldl (dictAddV vw) ((normalizeScores fts).foldl (dictSetF fw) []))
    have h1 : (idsOf (List.insertionSort candGE
        ((normalizeScores vec).foldl (dictAddV vw)
          ((normalizeScores fts).foldl (dictSetF fw) [])))).Nodup := by
      unfold idsOf
      unfold idsOf at hnodup
      exact (hperm.map (fun c => c.row.id)).symm.nodup hnodup
    have h2 : List.Sublist (idsOf ((List.insertionSort candGE
        ((normalizeScores vec).foldl (dictAddV vw)
          ((normalizeScores fts).foldl (dictSetF fw) []))).take lim))
        (idsOf (List.insertionSort candGE
          ((normalizeScores vec).foldl (dictAddV vw)
            ((normalizeScores fts).foldl (dictSetF fw) [])))) := by
      rw [idsOf, idsOf, List.map_take]
      exact List.take_sublist lim _
    exact h1.sublist h2
  · intro c hc
    exact hscore c (mem_merge_results hc)
  · unfold merge_results
    exact List.Pairwise.sublist (List.take_sublist lim _)
      (List.sorted_insertionSort candGE _)
  · unfold merge_results
    rw [List.length_take]
    exact min_le_left _ _

def exFts3 : List Cand := [⟨wRowA, 2⟩]

def exVec3 : List Cand := [⟨wRowA, 1⟩, ⟨wRowB, 3⟩]

theorem merge_results_spec_witness :
    (idsOf (merge_results exFts3 exVec3 (3/10) (7/10) 5)).Nodup ∧
    (merge_results exFts3 exVec3 (3/10) (7/10) 5).length ≤ 5 :=
  have h := merge_results_spec exFts3 exVec3 (3/10) (7/10) 5 (by decide) (by decide)
  ⟨h.1, h.2.2.2⟩

/-! ### C4: score bounds of the merge -/

theorem le_foldl_qmax_init (xs : List Cand) :
    ∀ a : ℚ, a ≤ xs.foldl (fun b x => qmax b x.score) a := by
  induction xs with
  | nil =>
    intro a
    exact le_refl a
  | cons x xs ih =>
    intro a
    rw [List.foldl_cons]
    refine le_trans ?_ (ih (qmax a x.score))
    by_cases h : a ≤ x.score
    · rw [qmax, if_pos h]
      exact h
    · rw [qmax, if_neg h]

theorem mem_le_foldl_qmax (xs : List Cand) :
    ∀ (a : ℚ) (c : Cand), c ∈ xs → c.score ≤ xs.foldl (fun b x => qmax b x.score) a := by
  induction xs with
  | nil =>
    intro a c hc
    cases hc
  | cons x xs ih =>
    intro a c hc
    rw [List.foldl_cons]
    rcases List.mem_cons.mp hc with heq | hmem
    · subst heq
      refine le_trans ?_ (le_foldl_qmax_init xs (qmax a c.score))
      by_cases h : a ≤ c.score
      · rw [qmax, if_pos h]
      · rw [qmax, if_neg h]
        exact le_of_not_le h
    · exact ih (qmax a x.score) c hmem

theorem scoresMax_ge {l : List Cand} {c : Cand} (hc : c ∈ l) :
    c.score ≤ scoresMax l := by
  cases l with
  | nil => cases hc
  | cons x xs =>
    rw [scoresMax]
    rcases List.mem_cons.mp hc with heq | hmem
    · subst heq
      exact le_foldl_qmax_init xs c.score
    · exact mem_le_foldl_qmax xs x.score c hmem

theorem scoresMax_nonneg {l : List Cand} {x : Cand} (hx : x ∈ l)
    (h : ∀ c ∈ l, 0 ≤ c.score) : 0 ≤ scoresMax l :=
  le_trans (h x hx) (scoresMax_ge hx)

/-- With nonnegative input scores, normalization lands in `[0, 1]`. -/
theorem normalizeScores_bounds {l : List Cand} (h : ∀ c ∈ l, 0 ≤ c.score) :
    ∀ c ∈ normalizeScores l, 0 ≤ c.score ∧ c.score ≤ 1 := by
  intro c hc
  unfold normalizeScores at hc
  split at hc
  · next hempty =>
    rw [List.isEmpty_iff] at hempty
    subst hempty
    cases hc
  · obtain ⟨z, hz, heq⟩ := List.mem_map.mp hc
    by_cases hm : scoresMax l = 0
    · have hz0 : z.score = 0 :=
        le_antisymm (hm ▸ scoresMax_ge hz) (h z hz)
      rw [if_pos hm] at heq
      subst heq
      rw [if_pos (by norm_num), hz0]
      norm_num
    · have hmpos : 0 < scoresMax l :=
        lt_of_le_of_ne (scoresMax_nonneg hz h) (fun hcontra => hm hcontra.symm)
      rw [if_neg hm] at heq
      subst heq
      rw [if_pos hmpos]
      exact ⟨div_nonneg (h z hz) (le_of_lt hmpos),
        (div_le_one hmpos).mpr (scoresMax_ge hz)⟩

/-- A single weighted contribution lies in `[0, weight]` when the
normalized scores lie in `[0, 1]` and the weight is nonnegative. -/
theorem ftsTerm_bounds (fw : ℚ) (hfw : 0 ≤ fw) (ftsN : List Cand)
    (hb : ∀ c ∈ ftsN, 0 ≤ c.score ∧ c.score ≤ 1) (k : String) :
    0 ≤ ftsTerm fw ftsN k ∧ ftsTerm fw ftsN k ≤ fw := by
  unfold ftsTerm
  cases hfb : findById ftsN k with
  | none => exact ⟨le_refl 0, hfw⟩
  | some cf =>
    have hcf := hb cf (List.mem_of_find?_eq_some hfb)
    exact ⟨mul_nonneg hfw hcf.1, mul_le_of_le_one_right hfw hcf.2⟩

theorem vecTerm_eq_ftsTerm (vw : ℚ) (l : List Cand) (k : String) :
    vecTerm vw l k = ftsTerm vw l k := rfl

def exVecNeg : List Cand := [⟨wRowA, 1⟩, ⟨wRowB, -1⟩]

/-- C4 counterexample: `vector_search` scores are `1 - distance` and can
be negative; a mixed-sign input list normalizes a negative score to a
negative value, and the merged output then carries a combined score below
`0`, outside the claimed interval `[0, fts_weight + vec_weight]`. -/
theorem merge_negative_score_counterexample :
    (⟨wRowB, -(7 : ℚ)/10⟩ : Cand) ∈ merge_results [] exVecNeg (3/10) (7/10) 5 ∧
    -(7 : ℚ)/10 < 0 := by
  with_unfolding_all decide

/-- C4 (amended): for input lists with nonnegative scores, pairwise
distinct identifiers and nonnegative weights, every combined score lies
in `[0, fts_weight + vec_weight]`, and a record appearing in both input
lists never scores lower than `vec_weight` times its normalized vector
score alone. -/
theorem merge_results_bounds (fts vec : List Cand) (fw vw : ℚ) (lim : Nat)
    (hf : (idsOf fts).Nodup) (hv : (idsOf vec).Nodup)
    (hfw : 0 ≤ fw) (hvw : 0 ≤ vw)
    (hfs : ∀ c ∈ fts, 0 ≤ c.score) (hvs : ∀ c ∈ vec, 0 ≤ c.score) :
    (∀ c ∈ merge_results fts vec fw vw lim, 0 ≤ c.score ∧ c.score ≤ fw + vw) ∧
    (∀ c ∈ merge_results fts vec fw vw lim, ∀ cf cv,
      findById (normalizeScores fts) c.row.id = some cf →
      findById (normalizeScores vec) c.row.id = some cv →
      vw * cv.score ≤ c.score) := by
  have hfN : (idsOf (normalizeScores fts)).Nodup := by
    rw [idsOf_normalizeScores]
    exact hf
  have hvN : (idsOf (normalizeScores vec)).Nodup := by
    rw [idsOf_normalizeScores]
    exact hv
  have hscore := (mergeScores_spec fw vw (normalizeScores fts) (normalizeScores vec) hfN hvN).2
  have hbf := normalizeScores_bounds hfs
  have hbv := normalizeScores_bounds hvs
  constructor
  · intro c hc
    rw [hscore c (mem_merge_results hc), combinedScore, vecTerm_eq_ftsTerm]
    have t1 := ftsTerm_bounds fw hfw (normalizeScores fts) hbf c.row.id
    have t2 := ftsTerm_bounds vw hvw (normalizeScores vec) hbv c.row.id
    exact ⟨add_nonneg t1.1 t2.1, add_le_add t1.2 t2.2⟩
  · intro c hc cf cv hcf hcv
    rw [hscore c (mem_merge_results hc), combinedScore]
    have hterm : vecTerm vw (normalizeScores vec) c.row.id = vw * cv.score := by
      unfold vecTerm
      rw [hcv]
    rw [hterm]
    have t1 := ftsTerm_bounds fw hfw (normalizeScores fts) hbf c.row.id
    exact le_add_of_nonneg_left t1.1

theorem merge_results_bounds_witness :
    0 ≤ (7 : ℚ)/10 ∧ (7 : ℚ)/10 ≤ 3/10 + 7/10 :=
  (merge_results_bounds exFts3 exVec3 (3/10) (7/10) 5 (by decide) (by decide)
    (by with_unfolding_all decide) (by with_unfolding_all decide)
    (by with_unfolding_all decide) (by with_unfolding_all decide)).1
    ⟨wRowB, (7 : ℚ)/10⟩ (by with_unfolding_all decide)

end EchoVault
